import Mathlib

/-!
Verification of the seam-carving core against its specification.

The development shallowly embeds the two C source files:
* `src/wasm/seamcarving.c` — the four stage functions `calc_energy`,
  `dynamic_seam`, `recover_path`, `remove_seam`;
* `src/wasm/seamcarving_wasm.c` — the composed `seam_carve` operation
  (energy map, DP table, backtracking and seam removal inlined).

Machine integers are modelled by `ℕ` (with `% 256` where a value is stored
into a `uint8_t` cell) and `ℤ` for the signed gradient differences; the
`double` cost cells only ever hold exact sums of small naturals here, so they
are modelled by `ℕ` as well.  Rasters are modelled as channel-indexed pixel
functions together with explicit dimensions; freshly `malloc`ed storage is
modelled by an explicit "junk" function supplying the indeterminate contents
of cells that are read before ever being written.
-/

namespace SeamCarving

/-- Pixel store of a 3-channel (RGB) raster: row → column → channel → byte. -/
abbrev Px3 := ℕ → ℕ → Fin 3 → ℕ

/-- Pixel store of a 4-channel (RGBA) raster: row → column → channel → byte. -/
abbrev Px4 := ℕ → ℕ → Fin 4 → ℕ

/-- A 3-channel raster with its dimensions (the `rgb_img` struct of
`c_img.h` and `seamcarving.c`). -/
structure Raster3 where
  h : ℕ
  w : ℕ
  px : Px3

/-- A 4-channel raster with its dimensions (the RGBA byte buffers of
`seamcarving_wasm.c`). -/
structure Raster4 where
  h : ℕ
  w : ℕ
  px : Px4

/-- Modelled from the spec: the Raster collaborator's `setPixel` (the
`set_pixel` of `c_img.c`, which is not part of the two core source files):
overwrite the three channel values of one cell, leaving every other cell
unchanged. -/
def setPx3 (f : Px3) (j i : ℕ) (v : Fin 3 → ℕ) : Px3 :=
  fun j' i' ch => if j' = j ∧ i' = i then v ch else f j' i' ch

/-- `set_pixel` of `seamcarving_wasm.c` (lines 30–35): overwrite the four
channel values of one cell of an RGBA buffer. -/
def setPx4 (f : Px4) (j i : ℕ) (v : Fin 4 → ℕ) : Px4 :=
  fun j' i' ch => if j' = j ∧ i' = i then v ch else f j' i' ch

/-! ## Stage 1: dual-gradient energy (`calc_energy`) -/

/-- Horizontal neighbour index to the left, wrapping at the border
(`k_left`, `seamcarving.c` lines 42–47). -/
def kLeft (w i : ℕ) : ℕ := if i = 0 then w - 1 else i - 1

/-- Horizontal neighbour index to the right, wrapping at the border
(`k_right`, `seamcarving.c` lines 49–54). -/
def kRight (w i : ℕ) : ℕ := if i = w - 1 then 0 else i + 1

/-- Vertical neighbour index above, wrapping at the border
(`k_up`, `seamcarving.c` lines 56–61). -/
def kUp (h j : ℕ) : ℕ := if j = 0 then h - 1 else j - 1

/-- Vertical neighbour index below, wrapping at the border
(`k_down`, `seamcarving.c` lines 63–68). -/
def kDown (h j : ℕ) : ℕ := if j = h - 1 then 0 else j + 1

/-- `grad_x_2` at pixel (j,i): sum over the three colour channels of the
squared signed difference between the right and left wrapped neighbours
(`seamcarving.c` lines 71–80). -/
def gradX2 (px : ℕ → ℕ → ℕ → ℕ) (w j i : ℕ) : ℕ :=
  ((px j (kRight w i) 0 : ℤ) - px j (kLeft w i) 0).natAbs ^ 2 +
  ((px j (kRight w i) 1 : ℤ) - px j (kLeft w i) 1).natAbs ^ 2 +
  ((px j (kRight w i) 2 : ℤ) - px j (kLeft w i) 2).natAbs ^ 2

/-- `grad_y_2` at pixel (j,i): sum over the three colour channels of the
squared signed difference between the upper and lower wrapped neighbours
(`seamcarving.c` lines 75–81). -/
def gradY2 (px : ℕ → ℕ → ℕ → ℕ) (h j i : ℕ) : ℕ :=
  ((px (kUp h j) i 0 : ℤ) - px (kDown h j) i 0).natAbs ^ 2 +
  ((px (kUp h j) i 1 : ℤ) - px (kDown h j) i 1).natAbs ^ 2 +
  ((px (kUp h j) i 2 : ℤ) - px (kDown h j) i 2).natAbs ^ 2

/-- Digit-pair integer square root with explicit fuel (fuel `n` always
suffices for input `n`); an executable equivalent of `Nat.sqrt`, see
`isqrt_eq_sqrt`. -/
def isqrtF : ℕ → ℕ → ℕ
  | 0, _ => 0
  | f + 1, n =>
    if n = 0 then 0
    else
      let r := isqrtF f (n / 4)
      if (2 * r + 1) * (2 * r + 1) ≤ n then 2 * r + 1 else 2 * r

/-- The integer square root, `⌊√n⌋`. -/
def isqrt (n : ℕ) : ℕ := isqrtF n n

/-- `energy = sqrt(grad_x_2 + grad_y_2)` truncated to `int`
(`seamcarving.c` line 84): for the magnitudes reachable here the C
double `sqrt` truncates to the integer square root. -/
def energyAt (px : ℕ → ℕ → ℕ → ℕ) (h w j i : ℕ) : ℕ :=
  isqrt (gradX2 px w j i + gradY2 px h j i)

/-- `energy_norm = (uint8_t)(energy / 10)` (`seamcarving.c` line 85):
integer division by 10 followed by the truncating narrowing of the
store into the 8-bit raster cell. -/
def energyNorm (px : ℕ → ℕ → ℕ → ℕ) (h w j i : ℕ) : ℕ :=
  (energyAt px h w j i / 10) % 256

/-- Channel-erased view of an RGB pixel store, matching the untyped
`get_pixel(im, y, x, col)` calls of the C code (`col` is 0, 1 or 2 at
every call site). -/
def view3 (px : Px3) : ℕ → ℕ → ℕ → ℕ :=
  fun j i c => px j i ⟨c % 3, Nat.mod_lt _ (by omega)⟩

/-- Channel-erased view of an RGBA pixel store. -/
def view4 (px : Px4) : ℕ → ℕ → ℕ → ℕ :=
  fun j i c => px j i ⟨c % 4, Nat.mod_lt _ (by omega)⟩

/-- `calc_energy` of `seamcarving.c` (lines 9–91): allocates a raster of the
same dimensions and stores the normalised energy identically in all three
channels of each cell (`set_pixel(*grad, j, i, e, e, e)`). -/
def calcEnergy (im : Raster3) : Raster3 :=
  ⟨im.h, im.w, fun j i _ => energyNorm (view3 im.px) im.h im.w j i⟩

/-- `calc_energy` of `seamcarving_wasm.c` (lines 50–82): same computation on
an RGBA buffer (only the three colour channels of the source are read), the
normalised energy being stored in the three colour channels and 255 in the
alpha channel (`set_pixel(dest, w, j, i, e, e, e, 255)`). -/
def calcEnergyW (src : Px4) (h w : ℕ) : Px4 :=
  fun j i ch => if ch.val = 3 then 255 else energyNorm (view4 src) h w j i

/-! ## Stage 2: cumulative cost table (`dynamic_seam`) -/

/-- `min_2` of `seamcarving.c` (lines 95–102): `if (e1 > e2) e2 else e1`. -/
def min2 (e1 e2 : ℕ) : ℕ := if e1 > e2 then e2 else e1

/-- `min_3` of `seamcarving.c` (lines 105–114): `min_2` of the first two,
then compared against the third. -/
def min3 (e1 e2 e3 : ℕ) : ℕ := if min2 e1 e2 > e3 then e3 else min2 e1 e2

/-- One flat cell of the `best_arr` array filled by `dynamic_seam`
(`seamcarving.c` lines 116–169; the identical inlined loop is
`seamcarving_wasm.c` lines 92–127).  The array is modelled flat, exactly as
allocated: cell `n` encodes row `n / w`, column `n % w`.  A read of a cell
that has not yet been written (the cells are written in increasing flat
order) returns the indeterminate `malloc` contents, supplied by `junk`.
The first argument is recursion fuel: `n + 1` fuel always suffices to
compute cell `n` (see `bestAF_stable`). -/
def bestAF (E : ℕ → ℕ → ℕ) (w : ℕ) (junk : ℕ → ℕ) : ℕ → ℕ → ℕ
  | 0, n => junk n
  | f + 1, n =>
    if n < w then E 0 n
    else
      let j := n / w
      let i := n % w
      let read : ℕ → ℕ := fun k => if k < n then bestAF E w junk f k else junk k
      let cur := E j i
      if i = 0 then
        cur + min2 (read ((j - 1) * w + (i + 1))) (read ((j - 1) * w + i))
      else if i = w - 1 then
        cur + min2 (read ((j - 1) * w + i)) (read ((j - 1) * w + (i - 1)))
      else
        cur + min3 (read ((j - 1) * w + (i - 1))) (read ((j - 1) * w + i))
              (read ((j - 1) * w + (i + 1)))

/-- Value of flat cell `n` of the finished `best_arr`. -/
def bestCell (E : ℕ → ℕ → ℕ) (w : ℕ) (junk : ℕ → ℕ) (n : ℕ) : ℕ :=
  bestAF E w junk (n + 1) n

/-- The cost table as a two-dimensional lookup: row `j`, column `i` of the
array produced by `dynamic_seam` for a `w`-column energy map `E`. -/
def bestTbl (E : ℕ → ℕ → ℕ) (w : ℕ) (junk : ℕ → ℕ) (j i : ℕ) : ℕ :=
  bestCell E w junk (j * w + i)

/-- The predecessor set of column `i` as the specification words it:
`{i-1, i, i+1} ∩ [0, W-1]`. -/
def predSet (w i : ℕ) : Finset ℕ := {i - 1, i, i + 1} ∩ Finset.range w

/-- The width-1 energy map exhibiting the uninitialised read of
`dynamic_seam`: two rows, energies 5 and 7. -/
def dsE1 : ℕ → ℕ → ℕ := fun j _ => if j = 0 then 5 else 7

/-- Zero `malloc` junk, one concrete model of the indeterminate contents of
the freshly allocated `best_arr`. -/
def junk0 : ℕ → ℕ := fun _ => 0

/-- A second model of the `malloc` junk, showing the width-1 result depends
on the indeterminate contents. -/
def junk9 : ℕ → ℕ := fun _ => 9

/-- Indeterminate initial contents of a freshly allocated 3-channel
destination raster. -/
def junk3 : Px3 := fun _ _ _ => 99

/-! ## Stage 3: seam recovery (`recover_path` and the inlined wasm backtrack) -/

/-- The literal `10000000000000000` used by `recover_path` as the initial
"minimum" of each row scan (`seamcarving.c` line 185). -/
def sentinel : ℕ := 10000000000000000

/-- One iteration of the bottom-row scan of `recover_path`
(`seamcarving.c` lines 199–205): a strictly smaller cost replaces the
running minimum and records its index (both `(*path)[j]` and `x_cont`). -/
def bottomStepR (cost : ℕ → ℕ) (s : ℕ × ℕ) (i : ℕ) : ℕ × ℕ :=
  if s.1 > cost i then (cost i, i) else s

/-- The bottom-row scan of `recover_path`: fold over the whole row, starting
from the sentinel minimum; `u` models the indeterminate initial contents of
the uninitialised `x_cont`/`path[height-1]` (never kept once some cost is
below the sentinel). -/
def bottomScanR (cost : ℕ → ℕ) (w u : ℕ) : ℕ × ℕ :=
  (List.range w).foldl (bottomStepR cost) (sentinel, u)

/-- Candidate-recording state of one backtracking row of `recover_path`:
the six accumulators `e1_sum, e1_i, e2_sum, e2_i, e3_sum, e3_i`
(`seamcarving.c` lines 188–193), all initialised to 0 each row. -/
structure ESt where
  e1s : ℕ
  e1i : ℕ
  e2s : ℕ
  e2i : ℕ
  e3s : ℕ
  e3i : ℕ
  deriving DecidableEq

/-- One candidate-recording iteration of a backtracking row of
`recover_path` (`seamcarving.c` lines 209–249).  The guard is the row-local
`min > best[j*width+i]` test: `min` still holds the sentinel throughout the
recording phase, because the selection block that overwrites it only runs in
the final iteration, after that iteration's recording. -/
def recordStep (cost : ℕ → ℕ) (w xc : ℕ) (s : ESt) (i : ℕ) : ESt :=
  if sentinel > cost i then
    if xc = 0 then
      if i = xc then { s with e1s := cost i, e1i := i }
      else if i = xc + 1 then { s with e2s := cost i, e2i := i }
      else s
    else if xc = w - 1 then
      if i = xc then { s with e1s := cost i, e1i := i }
      else if i = xc - 1 then { s with e2s := cost i, e2i := i }
      else s
    else
      if i = xc then { s with e1s := cost i, e1i := i }
      else if i = xc - 1 then { s with e2s := cost i, e2i := i }
      else if i = xc + 1 then { s with e3s := cost i, e3i := i }
      else s
  else s

/-- The selection block of a backtracking row of `recover_path`
(`seamcarving.c` lines 252–281), which runs in the final iteration
(`i == width - 1`), after that iteration's recording: a zero `e3_sum` is
taken to mean "boundary case" and only the first two candidates are
compared. -/
def selectIdx (s : ESt) : ℕ :=
  if s.e3s = 0 then
    if min2 s.e1s s.e2s = s.e1s then s.e1i else s.e2i
  else
    if min3 s.e1s s.e2s s.e3s = s.e1s then s.e1i
    else if min3 s.e1s s.e2s s.e3s = s.e2s then s.e2i
    else s.e3i

/-- One backtracking row of `recover_path`: record candidates over the whole
row, then select.  (In the C loop the selection is the tail of the last
iteration `i = width - 1`; hoisting it after the fold is the same
computation.) -/
def rowChoice (cost : ℕ → ℕ) (w xc : ℕ) : ℕ :=
  selectIdx ((List.range w).foldl (recordStep cost w xc) ⟨0, 0, 0, 0, 0, 0⟩)

/-- `recover_path` of `seamcarving.c` (lines 172–285), indexed by distance
`d` from the bottom row: distance 0 is the bottom-row scan, distance `d+1`
is one backtracking row (row `h-2-d`) fed by the previous choice. -/
def recoverAux (cost : ℕ → ℕ → ℕ) (h w u : ℕ) : ℕ → ℕ
  | 0 => (bottomScanR (cost (h - 1)) w u).2
  | d + 1 => rowChoice (cost (h - 2 - d)) w (recoverAux cost h w u d)

/-- The seam produced by `recover_path`: `path[j]`, for `0 ≤ j ≤ h-1`. -/
def recoverPath (cost : ℕ → ℕ → ℕ) (h w u j : ℕ) : ℕ :=
  recoverAux cost h w u (h - 1 - j)

/-- The bottom-row minimum scan of the wasm `seam_carve`
(`seamcarving_wasm.c` lines 132–142): running minimum initialised to the
cost of column 0, strictly-smaller scan over columns `1..w-1`. -/
def bottomScanW (cost : ℕ → ℕ) (w : ℕ) : ℕ :=
  ((List.range' 1 (w - 1)).foldl
    (fun (s : ℕ × ℕ) i => if cost i < s.1 then (cost i, i) else s)
    (cost 0, 0)).2

/-- One backtracking step of the wasm `seam_carve`
(`seamcarving_wasm.c` lines 145–164): start from the centre candidate
`c`, replace it by `c-1` then by `c+1` on strictly smaller cost. -/
def backstep (cost : ℕ → ℕ) (w c : ℕ) : ℕ :=
  let p0 : ℕ × ℕ := (cost c, c)
  let p1 : ℕ × ℕ :=
    if 0 < c then
      (if cost (c - 1) < p0.1 then (cost (c - 1), c - 1) else p0)
    else p0
  let p2 : ℕ × ℕ :=
    if c < w - 1 then
      (if cost (c + 1) < p1.1 then (cost (c + 1), c + 1) else p1)
    else p1
  p2.2

/-- The wasm backtrack, indexed by distance from the bottom row. -/
def wasmAux (cost : ℕ → ℕ → ℕ) (h w : ℕ) : ℕ → ℕ
  | 0 => bottomScanW (cost (h - 1)) w
  | d + 1 => backstep (cost (h - 2 - d)) w (wasmAux cost h w d)

/-- The seam produced by the wasm `seam_carve`: `path[j]`. -/
def wasmPath (cost : ℕ → ℕ → ℕ) (h w j : ℕ) : ℕ :=
  wasmAux cost h w (h - 1 - j)

/-! ### Specification-side notions for the seam claims -/

/-- `b` is the lowest index minimising `cost` over `[0, w)`. -/
def isLeastArgmin (cost : ℕ → ℕ) (w b : ℕ) : Prop :=
  b < w ∧ (∀ i, i < w → cost b ≤ cost i) ∧ (∀ i, i < b → cost b < cost i)

/-- The backtracking candidates in the specification's preference order:
the centre `c` first, then `c-1`, then `c+1`, each kept only when it lies
in `[0, w-1]`. -/
def prefCands (w c : ℕ) : List ℕ :=
  [c] ++ (if 0 < c then [c - 1] else []) ++ (if c + 1 ≤ w - 1 then [c + 1] else [])

/-- Minimum cost among the backtracking candidates. -/
def minCand (cost : ℕ → ℕ) (w c : ℕ) : ℕ :=
  (prefCands w c).foldl (fun a k => min a (cost k)) (cost c)

/-- The candidate the specification's tie-break designates: the first
candidate, in preference order, attaining the minimum cost. -/
def chooseByPref (cost : ℕ → ℕ) (w c : ℕ) : ℕ :=
  ((prefCands w c).find? (fun k => cost k == minCand cost w c)).getD c

/-- Number of candidates attaining the minimum cost (≥ 2 exactly when
"several candidates share the minimum"). -/
def tieCount (cost : ℕ → ℕ) (w c : ℕ) : ℕ :=
  ((prefCands w c).filter (fun k => cost k == minCand cost w c)).length

/-- The seam invariant stated by the specification for a cost table of
`hh` rows and `ww` columns: the bottom entry minimises the bottom row, and
every other entry lies in the adjacency set of the entry below and
minimises its row's cost over that set. -/
def seamInvariant (cost : ℕ → ℕ → ℕ) (hh ww : ℕ) (path : ℕ → ℕ) : Prop :=
  (path (hh - 1) < ww ∧
    ∀ i, i < ww → cost (hh - 1) (path (hh - 1)) ≤ cost (hh - 1) i) ∧
  ∀ j, j < hh - 1 →
    path j ∈ predSet ww (path (j + 1)) ∧
    ∀ k ∈ predSet ww (path (j + 1)), cost j (path j) ≤ cost j k

instance isLeastArgmin.inst (cost : ℕ → ℕ) (w b : ℕ) :
    Decidable (isLeastArgmin cost w b) := by
  unfold isLeastArgmin; infer_instance

instance seamInvariant.inst (cost : ℕ → ℕ → ℕ) (hh ww : ℕ) (path : ℕ → ℕ) :
    Decidable (seamInvariant cost hh ww path) := by
  unfold seamInvariant; infer_instance

/-- Row-major lookup in a list-of-rows table (out-of-range cells read 0);
used only to spell out concrete counterexample tables. -/
def tbl (l : List (List ℕ)) : ℕ → ℕ → ℕ :=
  fun j i => (l.getD j []).getD i 0

/-- Invariant of a strictly-less running-minimum scan after the columns
`[0, k)` have been seen: the state holds the cost and index of the lowest
minimising column so far. -/
def scanInv (cost : ℕ → ℕ) (k : ℕ) (s : ℕ × ℕ) : Prop :=
  s.2 < k ∧ s.1 = cost s.2 ∧ (∀ i, i < k → cost s.2 ≤ cost i) ∧
    ∀ i, i < s.2 → cost s.2 < cost i

/-- The non-centre lower candidate position: `xc+1` when `xc = 0` (recorded
into `e2` by the first boundary branch), `xc-1` otherwise. -/
def e2pos (xc : ℕ) : ℕ := if xc = 0 then xc + 1 else xc - 1

/-- The recording state after the columns `[0, k)` of a backtracking row
have been seen. -/
def recState (cost : ℕ → ℕ) (w xc k : ℕ) : ESt where
  e1s := if xc < k then cost xc else 0
  e1i := if xc < k then xc else 0
  e2s := if e2pos xc < k then cost (e2pos xc) else 0
  e2i := if e2pos xc < k then e2pos xc else 0
  e3s := if 0 < xc ∧ xc < w - 1 ∧ xc + 1 < k then cost (xc + 1) else 0
  e3i := if 0 < xc ∧ xc < w - 1 ∧ xc + 1 < k then xc + 1 else 0

/-! ## Stage 4: seam removal (`remove_seam` and the inlined wasm copy loop) -/

/-- One column iteration of `remove_seam` (`seamcarving.c` lines 302–322):
skip the seam column, copy columns left of it in place, shift columns right
of it one to the left. -/
def removeStepC (src : Px3) (p j : ℕ) (d : Px3) (i : ℕ) : Px3 :=
  if i = p then d
  else if i < p then setPx3 d j i (fun ch => src j i ch)
  else setPx3 d j (i - 1) (fun ch => src j i ch)

/-- One row of `remove_seam`. -/
def removeRowC (src : Px3) (w p j : ℕ) (d : Px3) : Px3 :=
  (List.range w).foldl (removeStepC src p j) d

/-- The pixel store written by `remove_seam` into the freshly allocated
destination `d0` (its indeterminate initial contents). -/
def removeSeamPx (src : Px3) (h w : ℕ) (path : ℕ → ℕ) (d0 : Px3) : Px3 :=
  (List.range h).foldl (fun d j => removeRowC src w (path j) j d) d0

/-- `remove_seam` of `seamcarving.c` (lines 288–324): allocates a raster of
the same height and width one less (`create_img(dest, src->height,
src->width - 1)`) and runs the copy loops; no validation of the seam path
occurs. -/
def removeSeam (src : Raster3) (path : ℕ → ℕ) (d0 : Px3) : Raster3 :=
  ⟨src.h, src.w - 1, removeSeamPx src.px src.h src.w path (d0)⟩

/-- Concrete 1×2 raster used to instantiate the seam-removal theorems. -/
def rs12 : Raster3 := ⟨1, 2, fun _ i _ => i + 1⟩

/-- The all-zero seam on a 1-row raster. -/
def path0 : ℕ → ℕ := fun _ => 0

/-- A seam column far outside the raster. -/
def path5 : ℕ → ℕ := fun _ => 5

/-! ### The wasm copy loop (`seam_carve` lines 167–183) -/

/-- One column iteration of the wasm copy loop: a pixel not on the seam is
copied — all four channels — to column `new_col` (the first state
component), which is then incremented; the seam pixel is skipped. -/
def removeStepW (src : Px4) (p j : ℕ) (s : ℕ × Px4) (i : ℕ) : ℕ × Px4 :=
  if i = p then s
  else (s.1 + 1, setPx4 s.2 j s.1 (fun ch => src j i ch))

/-- One row of the wasm copy loop, starting from `new_col = 0`. -/
def removeRowW (src : Px4) (w p j : ℕ) (d : Px4) : Px4 :=
  ((List.range w).foldl (removeStepW src p j) (0, d)).2

/-- The full wasm copy loop over all rows, writing into the freshly
allocated output buffer `d0`. -/
def removeW (src : Px4) (h w : ℕ) (path : ℕ → ℕ) (d0 : Px4) : Px4 :=
  (List.range h).foldl (fun d j => removeRowW src w (path j) j d) d0

/-! ## The composed operations -/

/-- Channel 0 of the energy map consumed by the wasm DP loop
(`best_arr[i] = get_pixel(energy_map, width, 0, i, 0)`). -/
def wasmEnergy (src : Raster4) : ℕ → ℕ → ℕ :=
  fun j i => calcEnergyW src.px src.h src.w j i 0

/-- The cost table built inside the wasm `seam_carve`
(`seamcarving_wasm.c` lines 92–127). -/
def wasmCost (src : Raster4) (junk : ℕ → ℕ) : ℕ → ℕ → ℕ :=
  bestTbl (wasmEnergy src) src.w junk

/-- The seam found inside the wasm `seam_carve`
(`seamcarving_wasm.c` lines 129–165). -/
def wasmSeam (src : Raster4) (junk : ℕ → ℕ) (j : ℕ) : ℕ :=
  wasmPath (wasmCost src junk) src.h src.w j

/-- The composed wasm `seam_carve` (`seamcarving_wasm.c` lines 86–191):
energy map, DP table, backtrack and copy loop, returning a buffer of
height `h` and width `w - 1`; `junk` models the indeterminate contents of
the freshly `malloc`ed `best_arr` and `d0` those of the output buffer. -/
def seamCarveW (src : Raster4) (junk : ℕ → ℕ) (d0 : Px4) : Raster4 :=
  ⟨src.h, src.w - 1, removeW src.px src.h src.w (wasmSeam src junk) d0⟩

/-- Channel 0 of the energy raster consumed by `dynamic_seam`
(`get_pixel(grad, j, i, 0)`). -/
def cEnergy (im : Raster3) : ℕ → ℕ → ℕ :=
  fun j i => (calcEnergy im).px j i 0

/-- The cost table produced by `dynamic_seam` on `calc_energy`'s output. -/
def cCost (im : Raster3) (junk : ℕ → ℕ) : ℕ → ℕ → ℕ :=
  bestTbl (cEnergy im) im.w junk

/-- The seam produced by `recover_path` on that cost table. -/
def cSeam (im : Raster3) (junk : ℕ → ℕ) (u j : ℕ) : ℕ :=
  recoverPath (cCost im junk) im.h im.w u j

/-- The four individual stages of `seamcarving.c` composed:
`calc_energy`, `dynamic_seam`, `recover_path`, `remove_seam`. -/
def seamCarveStages (im : Raster3) (junk : ℕ → ℕ) (u : ℕ) (d0 : Px3) :
    Raster3 :=
  removeSeam im (cSeam im junk u) d0

/-- Concrete 1×2 RGBA raster for the witnesses. -/
def rw12 : Raster4 := ⟨1, 2, fun _ i ch => 10 * i + ch.val⟩

/-- Indeterminate initial contents of a freshly allocated RGBA buffer. -/
def junk4 : Px4 := fun _ _ _ => 77

/-! ## Claim theorems -/

/-- The cost table on which `recover_path` loses the minimum: H = 2, W = 3,
row 0 = (3, 5, 0), row 1 = (5, 1, 6). -/
def cbBest : ℕ → ℕ → ℕ := tbl [[3, 5, 0], [5, 1, 6]]

/-- The all-zero three-column cost row: all three candidates tie. -/
def zRow : ℕ → ℕ := fun _ => 0

/-- The 3×4 grey image on which the composed wasm operation and the four
composed stages diverge (channel values equal per pixel). -/
def c6g : ℕ → ℕ → ℕ := tbl [[0, 0, 0, 0], [0, 0, 0, 60], [60, 60, 0, 0]]

/-- That image as the 3-channel raster fed to the four stages. -/
def c6img3 : Raster3 := ⟨3, 4, fun j i _ => c6g j i⟩

/-- The same pixel data as the RGBA buffer fed to the wasm `seam_carve`. -/
def c6img4 : Raster4 :=
  ⟨3, 4, fun j i ch => if ch.val = 3 then 255 else c6g j i⟩

/-- All-zero fresh 3-channel destination. -/
def dz3 : Px3 := fun _ _ _ => 0

/-- All-zero fresh RGBA destination. -/
def dz4 : Px4 := fun _ _ _ => 0

/-- The combined squared-gradient magnitude as the specification words it:
the sum over the three colour channels of the squared signed horizontal and
vertical central differences, with toroidal neighbour lookup. -/
def gradSqInt (px : ℕ → ℕ → ℕ → ℕ) (h w j i : ℕ) : ℤ :=
  ((px j (kRight w i) 0 : ℤ) - px j (kLeft w i) 0) ^ 2 +
  ((px j (kRight w i) 1 : ℤ) - px j (kLeft w i) 1) ^ 2 +
  ((px j (kRight w i) 2 : ℤ) - px j (kLeft w i) 2) ^ 2 +
  ((px (kUp h j) i 0 : ℤ) - px (kDown h j) i 0) ^ 2 +
  ((px (kUp h j) i 1 : ℤ) - px (kDown h j) i 1) ^ 2 +
  ((px (kUp h j) i 2 : ℤ) - px (kDown h j) i 2) ^ 2

/-- The all-zero pixel store. -/
def pxZero : ℕ → ℕ → ℕ → ℕ := fun _ _ _ => 0

/-- The 3×3 all-black raster of the specification's concrete scenario. -/
def black3 : Raster3 := ⟨3, 3, fun _ _ _ => 0⟩

/-! ## Lemmas and claim theorems -/

theorem isqrtF_spec :
    ∀ f n, n ≤ f →
      isqrtF f n * isqrtF f n ≤ n ∧ n < (isqrtF f n + 1) * (isqrtF f n + 1) := by
  intro f
  induction f with
  | zero =>
    intro n hn
    have h0 : n = 0 := by omega
    subst h0
    exact ⟨by decide, by decide⟩
  | succ f ih =>
    intro n hn
    by_cases h0 : n = 0
    · subst h0
      simp [isqrtF]
    · have hq : n / 4 ≤ f := by omega
      obtain ⟨h1, h2⟩ := ih (n / 4) hq
      simp only [isqrtF, h0, if_false]
      by_cases hc :
          (2 * isqrtF f (n / 4) + 1) * (2 * isqrtF f (n / 4) + 1) ≤ n
      · rw [if_pos hc]
        refine ⟨hc, ?_⟩
        have hexp : (2 * isqrtF f (n / 4) + 1 + 1) * (2 * isqrtF f (n / 4) + 1 + 1) =
            4 * ((isqrtF f (n / 4) + 1) * (isqrtF f (n / 4) + 1)) := by ring
        omega
      · rw [if_neg hc]
        have hexp : 2 * isqrtF f (n / 4) * (2 * isqrtF f (n / 4)) =
            4 * (isqrtF f (n / 4) * isqrtF f (n / 4)) := by ring
        omega

theorem isqrt_spec (n : ℕ) :
    isqrt n * isqrt n ≤ n ∧ n < (isqrt n + 1) * (isqrt n + 1) :=
  isqrtF_spec n n (le_refl n)

/-- The executable square root agrees with `Nat.sqrt`. -/
theorem isqrt_eq_sqrt (n : ℕ) : isqrt n = Nat.sqrt n :=
  Nat.eq_sqrt.mpr (isqrt_spec n)

/-- Extra fuel does not change a cell's value once the fuel exceeds the
cell's flat index. -/
theorem bestAF_stable (E : ℕ → ℕ → ℕ) (w : ℕ) (junk : ℕ → ℕ) :
    ∀ f n, n < f → bestAF E w junk f n = bestCell E w junk n := by
  intro f
  induction f using Nat.strong_induction_on with
  | _ f ih =>
    match f with
    | 0 => exact fun n hn => absurd hn (Nat.not_lt_zero n)
    | g + 1 =>
      intro n hn
      have hread : ∀ k, (if k < n then bestAF E w junk g k else junk k)
          = (if k < n then bestAF E w junk n k else junk k) := by
        intro k
        by_cases hk : k < n
        · simp only [hk, if_true]
          rw [ih g (Nat.lt_succ_self g) k (by omega), ih n (by omega) k hk]
        · simp [hk]
      show bestAF E w junk (g + 1) n = bestAF E w junk (n + 1) n
      simp only [bestAF]
      simp only [hread]

theorem min2_eq_min (a b : ℕ) : min2 a b = min a b := by
  simp only [min2, Nat.min_def]
  split_ifs <;> omega

theorem min3_eq_min (a b c : ℕ) : min3 a b c = min a (min b c) := by
  simp only [min3, min2, Nat.min_def]
  split_ifs <;> omega

/-- Row 0 of the cost table equals row 0 of the energy map
(`seamcarving.c` lines 122–124). -/
theorem bestTbl_row_zero (E : ℕ → ℕ → ℕ) (w : ℕ) (junk : ℕ → ℕ) (i : ℕ)
    (hi : i < w) : bestTbl E w junk 0 i = E 0 i := by
  simp only [bestTbl, bestCell, Nat.zero_mul, Nat.zero_add, bestAF, if_pos hi]

theorem bestTbl_succ_left (E : ℕ → ℕ → ℕ) (w : ℕ) (junk : ℕ → ℕ) (j : ℕ)
    (hw : 2 ≤ w) :
    bestTbl E w junk (j + 1) 0 =
      E (j + 1) 0 + min2 (bestTbl E w junk j 1) (bestTbl E w junk j 0) := by
  have hx2 : (j + 1) * w = j * w + w := by ring
  have hge : ¬ ((j + 1) * w < w) := by omega
  have hdiv : (j + 1) * w / w = j + 1 := by
    rw [show (j + 1) * w = 0 + (j + 1) * w from (Nat.zero_add _).symm,
      Nat.add_mul_div_right _ _ (show 0 < w by omega), Nat.zero_div,
      Nat.zero_add]
  have hmod : (j + 1) * w % w = 0 := Nat.mul_mod_left _ _
  have hk1 : j * w + 1 < (j + 1) * w := by omega
  have hk2 : j * w < (j + 1) * w := by omega
  simp only [bestTbl, Nat.add_zero]
  conv_lhs => simp only [bestCell]
  conv_lhs => rw [bestAF]
  simp only [hge, if_false, hdiv, hmod, Nat.add_sub_cancel, Nat.zero_add,
    Nat.add_zero, reduceIte, if_pos hk1, if_pos hk2,
    bestAF_stable E w junk ((j + 1) * w) (j * w + 1) hk1,
    bestAF_stable E w junk ((j + 1) * w) (j * w) hk2]

theorem bestTbl_succ_right (E : ℕ → ℕ → ℕ) (w : ℕ) (junk : ℕ → ℕ) (j : ℕ)
    (hw : 2 ≤ w) :
    bestTbl E w junk (j + 1) (w - 1) =
      E (j + 1) (w - 1) +
        min2 (bestTbl E w junk j (w - 1)) (bestTbl E w junk j (w - 2)) := by
  have hx2 : (j + 1) * w = j * w + w := by ring
  have hge : ¬ ((j + 1) * w + (w - 1) < w) := by omega
  have hdiv : ((j + 1) * w + (w - 1)) / w = j + 1 := by
    rw [Nat.add_comm, Nat.add_mul_div_right _ _ (by omega : 0 < w),
      Nat.div_eq_of_lt (by omega), Nat.zero_add]
  have hmod : ((j + 1) * w + (w - 1)) % w = w - 1 := by
    rw [Nat.add_comm, Nat.add_mul_mod_self_right]
    exact Nat.mod_eq_of_lt (by omega)
  have hne0 : ¬ (w - 1 = 0) := by omega
  have hk1 : j * w + (w - 1) < (j + 1) * w + (w - 1) := by omega
  have hk2 : j * w + (w - 2) < (j + 1) * w + (w - 1) := by omega
  have hsub : w - 1 - 1 = w - 2 := by omega
  simp only [bestTbl]
  conv_lhs => simp only [bestCell]
  conv_lhs => rw [bestAF]
  simp only [hge, if_false, hdiv, hmod, hne0, Nat.add_sub_cancel, reduceIte,
    if_pos hk1, if_pos hk2,
    bestAF_stable E w junk ((j + 1) * w + (w - 1)) (j * w + (w - 1)) hk1,
    bestAF_stable E w junk ((j + 1) * w + (w - 1)) (j * w + (w - 2)) hk2,
    hsub]

theorem bestTbl_succ_mid (E : ℕ → ℕ → ℕ) (w : ℕ) (junk : ℕ → ℕ) (j i : ℕ)
    (hi0 : 0 < i) (hiw : i < w - 1) :
    bestTbl E w junk (j + 1) i =
      E (j + 1) i +
        min3 (bestTbl E w junk j (i - 1)) (bestTbl E w junk j i)
          (bestTbl E w junk j (i + 1)) := by
  have hx2 : (j + 1) * w = j * w + w := by ring
  have hge : ¬ ((j + 1) * w + i < w) := by omega
  have hdiv : ((j + 1) * w + i) / w = j + 1 := by
    rw [Nat.add_comm, Nat.add_mul_div_right _ _ (by omega : 0 < w),
      Nat.div_eq_of_lt (by omega), Nat.zero_add]
  have hmod : ((j + 1) * w + i) % w = i := by
    rw [Nat.add_comm, Nat.add_mul_mod_self_right]
    exact Nat.mod_eq_of_lt (by omega)
  have hne0 : ¬ (i = 0) := by omega
  have hnew : ¬ (i = w - 1) := by omega
  have hk1 : j * w + (i - 1) < (j + 1) * w + i := by omega
  have hk2 : j * w + i < (j + 1) * w + i := by omega
  have hk3 : j * w + (i + 1) < (j + 1) * w + i := by omega
  simp only [bestTbl]
  conv_lhs => simp only [bestCell]
  conv_lhs => rw [bestAF]
  simp only [hge, if_false, hdiv, hmod, hne0, hnew, Nat.add_sub_cancel,
    reduceIte, if_pos hk1, if_pos hk2, if_pos hk3,
    bestAF_stable E w junk ((j + 1) * w + i) (j * w + (i - 1)) hk1,
    bestAF_stable E w junk ((j + 1) * w + i) (j * w + i) hk2,
    bestAF_stable E w junk ((j + 1) * w + i) (j * w + (i + 1)) hk3]

theorem predSet_nonempty {w i : ℕ} (hi : i < w) : (predSet w i).Nonempty :=
  ⟨i, by simp [predSet, hi]⟩

theorem predSet_zero {w : ℕ} (hw : 2 ≤ w) : predSet w 0 = {0, 1} := by
  ext x
  simp only [predSet, Finset.mem_inter, Finset.mem_insert, Finset.mem_singleton,
    Finset.mem_range]
  omega

theorem predSet_last {w : ℕ} (hw : 2 ≤ w) :
    predSet w (w - 1) = {w - 2, w - 1} := by
  ext x
  simp only [predSet, Finset.mem_inter, Finset.mem_insert, Finset.mem_singleton,
    Finset.mem_range]
  omega

theorem predSet_mid {w i : ℕ} (hi0 : 0 < i) (hiw : i < w - 1) :
    predSet w i = {i - 1, i, i + 1} := by
  ext x
  simp only [predSet, Finset.mem_inter, Finset.mem_insert, Finset.mem_singleton,
    Finset.mem_range]
  omega

/-- Minimum of a function over a concrete two-element finite set. -/
theorem inf'_pair (f : ℕ → ℕ) (s : Finset ℕ) (h : s.Nonempty) (a b : ℕ)
    (hs : s = {a, b}) : s.inf' h f = min (f a) (min (f a) (f b)) := by
  subst hs
  apply le_antisymm
  · exact le_min (Finset.inf'_le f (by simp))
      (le_min (Finset.inf'_le f (by simp)) (Finset.inf'_le f (by simp)))
  · refine Finset.le_inf' h f ?_
    intro x hx
    simp only [Finset.mem_insert, Finset.mem_singleton] at hx
    rcases hx with rfl | rfl
    · exact min_le_left _ _
    · exact le_trans (min_le_right _ _) (min_le_right _ _)

/-- Minimum of a function over a concrete three-element finite set. -/
theorem inf'_triple (f : ℕ → ℕ) (s : Finset ℕ) (h : s.Nonempty) (a b c : ℕ)
    (hs : s = {a, b, c}) : s.inf' h f = min (f a) (min (f b) (f c)) := by
  subst hs
  apply le_antisymm
  · exact le_min (Finset.inf'_le f (by simp))
      (le_min (Finset.inf'_le f (by simp)) (Finset.inf'_le f (by simp)))
  · refine Finset.le_inf' h f ?_
    intro x hx
    simp only [Finset.mem_insert, Finset.mem_singleton] at hx
    rcases hx with rfl | rfl | rfl
    · exact min_le_left _ _
    · exact le_trans (min_le_right _ _) (min_le_left _ _)
    · exact le_trans (min_le_right _ _) (min_le_right _ _)

/-- The cost table obeys the specification's recurrence whenever `W ≥ 2`:
`CostTable[j][i] = EnergyMap[j][i] + min over {i-1,i,i+1} ∩ [0,W-1] of
CostTable[j-1][·]`, independently of the indeterminate `malloc` contents. -/
theorem bestTbl_recurrence (E : ℕ → ℕ → ℕ) (w : ℕ) (junk : ℕ → ℕ) (j i : ℕ)
    (hw : 2 ≤ w) (hi : i < w) :
    bestTbl E w junk (j + 1) i =
      E (j + 1) i +
        (predSet w i).inf' (predSet_nonempty hi) (bestTbl E w junk j) := by
  rcases Nat.eq_zero_or_pos i with h0 | h0
  · subst h0
    rw [bestTbl_succ_left E w junk j hw, min2_eq_min,
      inf'_pair (bestTbl E w junk j) _ (predSet_nonempty hi) 0 1
        (predSet_zero hw)]
    congr 1
    have h01 : min (bestTbl E w junk j 0) (bestTbl E w junk j 1) =
        min (bestTbl E w junk j 1) (bestTbl E w junk j 0) := min_comm _ _
    omega
  · rcases Nat.lt_or_ge i (w - 1) with hlt | hge
    · rw [bestTbl_succ_mid E w junk j i h0 hlt, min3_eq_min,
        inf'_triple (bestTbl E w junk j) _ (predSet_nonempty hi) (i - 1) i
          (i + 1) (predSet_mid h0 hlt)]
    · have hieq : i = w - 1 := by omega
      subst hieq
      rw [bestTbl_succ_right E w junk j hw, min2_eq_min,
        inf'_pair (bestTbl E w junk j) _ (predSet_nonempty hi) (w - 2) (w - 1)
          (predSet_last hw)]
      congr 1
      have hcm : min (bestTbl E w junk j (w - 2)) (bestTbl E w junk j (w - 1)) =
          min (bestTbl E w junk j (w - 1)) (bestTbl E w junk j (w - 2)) :=
        min_comm _ _
      omega

theorem scanInv_step (cost : ℕ → ℕ) (k : ℕ) (s : ℕ × ℕ)
    (h : scanInv cost k s) :
    scanInv cost (k + 1) (if cost k < s.1 then (cost k, k) else s) := by
  rcases h with ⟨h1, h2, h3, h4⟩
  split
  · next hlt =>
    refine ⟨by omega, rfl, ?_, ?_⟩
    · intro i hi
      rcases Nat.lt_or_ge i k with hik | hik
      · exact le_of_lt (lt_of_lt_of_le (h2 ▸ hlt) (h3 i hik))
      · have : i = k := by omega
        subst this; exact le_refl _
    · intro i hi
      exact lt_of_lt_of_le (h2 ▸ hlt) (h3 i hi)
  · next hge =>
    refine ⟨by omega, h2, ?_, h4⟩
    intro i hi
    rcases Nat.lt_or_ge i k with hik | hik
    · exact h3 i hik
    · have : i = k := by omega
      subst this
      omega

theorem scanInv_fold (cost : ℕ → ℕ) (m : ℕ) :
    ∀ k s, scanInv cost k s →
      scanInv cost (k + m)
        ((List.range' k m).foldl
          (fun s i => if cost i < s.1 then (cost i, i) else s) s) := by
  induction m with
  | zero => intro k s h; simpa using h
  | succ m ih =>
    intro k s h
    rw [List.range'_succ, List.foldl_cons]
    have := ih (k + 1) _ (scanInv_step cost k s h)
    have harith : k + 1 + m = k + (m + 1) := by omega
    rwa [harith] at this

/-- The wasm bottom-row scan returns the lowest index minimising the bottom
row (`seamcarving_wasm.c` lines 132–142). -/
theorem bottomScanW_least (cost : ℕ → ℕ) (w : ℕ) (hw : 1 ≤ w) :
    isLeastArgmin cost w (bottomScanW cost w) := by
  have hinv : scanInv cost 1 (cost 0, 0) := by
    refine ⟨Nat.zero_lt_one, rfl, ?_, ?_⟩
    · intro i hi
      have : i = 0 := by omega
      subst this; exact le_refl _
    · intro i hi; omega
  have := scanInv_fold cost (w - 1) 1 (cost 0, 0) hinv
  have harith : 1 + (w - 1) = w := by omega
  rw [harith] at this
  rcases this with ⟨h1, _, h3, h4⟩
  exact ⟨h1, h3, h4⟩

/-- The `recover_path` bottom-row scan returns the lowest index minimising
the bottom row (`seamcarving.c` lines 199–205), provided every cost is below
the sentinel, whatever the indeterminate initial index `u`. -/
theorem bottomScanR_least (cost : ℕ → ℕ) (w u : ℕ) (hw : 1 ≤ w)
    (hs : ∀ i, i < w → cost i < sentinel) :
    isLeastArgmin cost w (bottomScanR cost w u).2 := by
  have hsplit : List.range w = 0 :: List.range' 1 (w - 1) := by
    rw [List.range_eq_range']
    conv_lhs => rw [show w = (w - 1) + 1 from by omega]
    rw [List.range'_succ]
  unfold bottomScanR
  rw [hsplit, List.foldl_cons]
  have hstep0 : bottomStepR cost (sentinel, u) 0 = (cost 0, 0) := by
    unfold bottomStepR
    rw [if_pos (hs 0 (by omega))]
  rw [hstep0]
  show isLeastArgmin cost w
    ((List.range' 1 (w - 1)).foldl
      (fun (s : ℕ × ℕ) i => if cost i < s.1 then (cost i, i) else s)
      (cost 0, 0)).2
  have hinv : scanInv cost 1 (cost 0, 0) := by
    refine ⟨Nat.zero_lt_one, rfl, ?_, ?_⟩
    · intro i hi
      have : i = 0 := by omega
      subst this; exact le_refl _
    · intro i hi; omega
  have := scanInv_fold cost (w - 1) 1 (cost 0, 0) hinv
  have harith : 1 + (w - 1) = w := by omega
  rw [harith] at this
  rcases this with ⟨h1, _, h3, h4⟩
  exact ⟨h1, h3, h4⟩

theorem recordStep_irrelevant (cost : ℕ → ℕ) (w xc i : ℕ) (s : ESt)
    (h1 : i ≠ xc) (h2 : i ≠ xc - 1) (h3 : i ≠ xc + 1) :
    recordStep cost w xc s i = s := by
  unfold recordStep
  split_ifs <;> first | rfl | omega

theorem recordStep_center (cost : ℕ → ℕ) (w xc : ℕ) (s : ESt)
    (hg : cost xc < sentinel) :
    recordStep cost w xc s xc = { s with e1s := cost xc, e1i := xc } := by
  unfold recordStep
  split_ifs <;> first | rfl | omega

theorem recordStep_left (cost : ℕ → ℕ) (w xc : ℕ) (s : ESt) (h0 : 0 < xc)
    (hg : cost (xc - 1) < sentinel) :
    recordStep cost w xc s (xc - 1) =
      { s with e2s := cost (xc - 1), e2i := xc - 1 } := by
  unfold recordStep
  split_ifs <;> first | rfl | omega

theorem recordStep_zero_right (cost : ℕ → ℕ) (w : ℕ) (s : ESt)
    (hg : cost 1 < sentinel) :
    recordStep cost w 0 s 1 = { s with e2s := cost 1, e2i := 1 } := by
  unfold recordStep
  rw [if_pos hg, if_pos rfl, if_neg (by omega : (1 : ℕ) ≠ 0),
    if_pos (by omega : (1 : ℕ) = 0 + 1)]

theorem recordStep_right_mid (cost : ℕ → ℕ) (w xc : ℕ) (s : ESt)
    (h0 : 0 < xc) (hlt : xc < w - 1) (hg : cost (xc + 1) < sentinel) :
    recordStep cost w xc s (xc + 1) =
      { s with e3s := cost (xc + 1), e3i := xc + 1 } := by
  unfold recordStep
  split_ifs <;> first | rfl | omega

theorem recordStep_state (cost : ℕ → ℕ) (w xc k : ℕ) (hxc : xc < w)
    (hk : k < w) (hg : ∀ i, i < w → cost i < sentinel) :
    recordStep cost w xc (recState cost w xc k) k =
      recState cost w xc (k + 1) := by
  by_cases hc : k = xc
  · subst hc
    rw [recordStep_center cost w k _ (hg k hk)]
    unfold recState e2pos
    simp only [ESt.mk.injEq]
    refine ⟨?_, ?_, ?_, ?_, ?_, ?_⟩ <;> split_ifs <;> first | rfl | omega
  · by_cases he2 : k = e2pos xc
    · by_cases hx0 : xc = 0
      · subst hx0
        have hk1 : k = 1 := by simpa [e2pos] using he2
        subst hk1
        rw [recordStep_zero_right cost w _ (hg 1 hk)]
        unfold recState e2pos
        simp only [ESt.mk.injEq]
        refine ⟨?_, ?_, ?_, ?_, ?_, ?_⟩ <;> split_ifs <;> first | rfl | omega
      · have hx0' : 0 < xc := by omega
        have hk1 : k = xc - 1 := by simpa [e2pos, hx0] using he2
        subst hk1
        rw [recordStep_left cost w xc _ hx0' (hg _ hk)]
        unfold recState e2pos
        simp only [ESt.mk.injEq]
        refine ⟨?_, ?_, ?_, ?_, ?_, ?_⟩ <;> split_ifs <;> first | rfl | omega
    · by_cases he3 : k = xc + 1 ∧ 0 < xc
      · rcases he3 with ⟨hk1, hx0⟩
        have hlt : xc < w - 1 := by omega
        subst hk1
        rw [recordStep_right_mid cost w xc _ hx0 hlt (hg _ hk)]
        unfold recState e2pos
        simp only [ESt.mk.injEq]
        refine ⟨?_, ?_, ?_, ?_, ?_, ?_⟩ <;> split_ifs <;> first | rfl | omega
      · have hne1 : k ≠ xc := hc
        have hne2 : k ≠ xc - 1 := by
          by_cases hx0 : xc = 0
          · subst hx0; simpa using hne1
          · simp only [e2pos, hx0, if_false] at he2; exact he2
        have hne3 : k ≠ xc + 1 := by
          by_cases hx0 : xc = 0
          · simp only [e2pos, hx0, if_true] at he2
            omega
          · intro hcon
            exact he3 ⟨hcon, by omega⟩
        rw [recordStep_irrelevant cost w xc k _ hne1 hne2 hne3]
        unfold recState e2pos
        simp only [ESt.mk.injEq]
        refine ⟨?_, ?_, ?_, ?_, ?_, ?_⟩ <;> split_ifs <;> first | rfl | omega

/-- After scanning a whole backtracking row, the recording state holds
exactly the candidates adjacent to `x_cont`. -/
theorem rowRecord_final (cost : ℕ → ℕ) (w xc : ℕ) (hxc : xc < w)
    (hg : ∀ i, i < w → cost i < sentinel) :
    ∀ k, k ≤ w →
      (List.range k).foldl (recordStep cost w xc) ⟨0, 0, 0, 0, 0, 0⟩ =
        recState cost w xc k := by
  intro k
  induction k with
  | zero =>
    intro _
    unfold recState e2pos
    simp only [List.range_zero, List.foldl_nil, ESt.mk.injEq]
    refine ⟨?_, ?_, ?_, ?_, ?_, ?_⟩ <;> split_ifs <;> first | rfl | omega
  | succ k ih =>
    intro hk
    rw [List.range_succ, List.foldl_append, List.foldl_cons, List.foldl_nil,
      ih (by omega), recordStep_state cost w xc k hxc (by omega) hg]

theorem mem_prefCands_iff (cost : ℕ → ℕ) (w c k : ℕ) (hc : c < w) :
    k ∈ prefCands w c ↔ (k = c - 1 ∨ k = c ∨ k = c + 1) ∧ k < w := by
  by_cases h0 : 0 < c <;> by_cases h1 : c + 1 ≤ w - 1 <;>
    simp [prefCands, h0, h1] <;> omega

theorem self_mem_prefCands (w c : ℕ) : c ∈ prefCands w c := by
  simp [prefCands]

theorem mem_predSet_iff_prefCands (w c k : ℕ) (hc : c < w) :
    k ∈ predSet w c ↔ k ∈ prefCands w c := by
  rw [mem_prefCands_iff (fun _ => 0) w c k hc]
  simp only [predSet, Finset.mem_inter, Finset.mem_insert, Finset.mem_singleton,
    Finset.mem_range]

theorem foldl_min_le_init (cost : ℕ → ℕ) (l : List ℕ) :
    ∀ x : ℕ, l.foldl (fun a k => min a (cost k)) x ≤ x := by
  induction l with
  | nil => intro x; simp
  | cons a l ih =>
    intro x
    simp only [List.foldl_cons]
    exact le_trans (ih _) (min_le_left _ _)

theorem foldl_min_le_mem (cost : ℕ → ℕ) (l : List ℕ) :
    ∀ x : ℕ, ∀ k ∈ l, l.foldl (fun a k => min a (cost k)) x ≤ cost k := by
  induction l with
  | nil => intro x k hk; simp at hk
  | cons a l ih =>
    intro x k hk
    simp only [List.foldl_cons]
    rcases List.mem_cons.mp hk with rfl | hk
    · exact le_trans (foldl_min_le_init cost l _) (min_le_right _ _)
    · exact ih _ k hk

theorem foldl_min_attained (cost : ℕ → ℕ) (l : List ℕ) :
    ∀ x : ℕ, l.foldl (fun a k => min a (cost k)) x = x ∨
      ∃ k ∈ l, l.foldl (fun a k => min a (cost k)) x = cost k := by
  induction l with
  | nil => intro x; left; rfl
  | cons a l ih =>
    intro x
    simp only [List.foldl_cons]
    rcases ih (min x (cost a)) with h | ⟨k, hk, hke⟩
    · rcases Nat.le_total x (cost a) with hle | hle
      · left; rw [h, min_eq_left hle]
      · right
        exact ⟨a, List.mem_cons_self a l, by rw [h, min_eq_right hle]⟩
    · right
      exact ⟨k, List.mem_cons_of_mem a hk, hke⟩

theorem minCand_le (cost : ℕ → ℕ) (w c k : ℕ) (hk : k ∈ prefCands w c) :
    minCand cost w c ≤ cost k :=
  foldl_min_le_mem cost (prefCands w c) (cost c) k hk

theorem minCand_attained (cost : ℕ → ℕ) (w c : ℕ) :
    ∃ k ∈ prefCands w c, cost k = minCand cost w c := by
  rcases foldl_min_attained cost (prefCands w c) (cost c) with h | ⟨k, hk, hke⟩
  · exact ⟨c, self_mem_prefCands w c, h.symm⟩
  · exact ⟨k, hk, hke.symm⟩

theorem chooseByPref_spec (cost : ℕ → ℕ) (w c : ℕ) :
    chooseByPref cost w c ∈ prefCands w c ∧
      cost (chooseByPref cost w c) = minCand cost w c := by
  obtain ⟨k, hk, hke⟩ := minCand_attained cost w c
  have hsome : ((prefCands w c).find?
      (fun k => cost k == minCand cost w c)).isSome := by
    rw [List.find?_isSome]
    exact ⟨k, hk, by simpa using hke⟩
  obtain ⟨r, hr⟩ := Option.isSome_iff_exists.mp hsome
  have hmem := List.mem_of_find?_eq_some hr
  have hp := List.find?_some hr
  simp only [chooseByPref, hr, Option.getD_some]
  exact ⟨hmem, by simpa using hp⟩

theorem chooseByPref_mem_predSet (cost : ℕ → ℕ) (w c : ℕ) (hc : c < w) :
    chooseByPref cost w c ∈ predSet w c :=
  (mem_predSet_iff_prefCands w c _ hc).mpr (chooseByPref_spec cost w c).1

theorem chooseByPref_lt (cost : ℕ → ℕ) (w c : ℕ) (hc : c < w) :
    chooseByPref cost w c < w := by
  have := (mem_prefCands_iff cost w c _ hc).mp (chooseByPref_spec cost w c).1
  exact this.2

theorem chooseByPref_min (cost : ℕ → ℕ) (w c : ℕ) (hc : c < w) :
    ∀ k ∈ predSet w c, cost (chooseByPref cost w c) ≤ cost k := by
  intro k hk
  rw [(chooseByPref_spec cost w c).2]
  exact minCand_le cost w c k ((mem_predSet_iff_prefCands w c k hc).mp hk)

theorem prefCands_one (w : ℕ) (hw : w = 1) : prefCands w 0 = [0] := by
  subst hw; simp [prefCands]

theorem prefCands_zero (w : ℕ) (hw : 2 ≤ w) : prefCands w 0 = [0, 1] := by
  simp [prefCands, show 0 + 1 ≤ w - 1 from by omega]

theorem prefCands_last (w c : ℕ) (h0 : 0 < c) (hc : c = w - 1) :
    prefCands w c = [c, c - 1] := by
  simp [prefCands, h0, show ¬ (c + 1 ≤ w - 1) from by omega]

theorem prefCands_mid (w c : ℕ) (h0 : 0 < c) (hlt : c < w - 1) :
    prefCands w c = [c, c - 1, c + 1] := by
  simp [prefCands, h0, show c + 1 ≤ w - 1 from by omega]

theorem minCand_one (cost : ℕ → ℕ) (w : ℕ) (hw : w = 1) :
    minCand cost w 0 = cost 0 := by
  simp [minCand, prefCands_one w hw]

theorem minCand_zero (cost : ℕ → ℕ) (w : ℕ) (hw : 2 ≤ w) :
    minCand cost w 0 = min (cost 0) (cost 1) := by
  simp [minCand, prefCands_zero w hw]

theorem minCand_last (cost : ℕ → ℕ) (w c : ℕ) (h0 : 0 < c) (hc : c = w - 1) :
    minCand cost w c = min (cost c) (cost (c - 1)) := by
  simp [minCand, prefCands_last w c h0 hc]

theorem minCand_mid (cost : ℕ → ℕ) (w c : ℕ) (h0 : 0 < c) (hlt : c < w - 1) :
    minCand cost w c = min (min (cost c) (cost (c - 1))) (cost (c + 1)) := by
  simp [minCand, prefCands_mid w c h0 hlt]

theorem choose_one (cost : ℕ → ℕ) (w : ℕ) (hw : w = 1) :
    chooseByPref cost w 0 = 0 := by
  unfold chooseByPref
  rw [prefCands_one w hw]
  cases h : (cost 0 == minCand cost w 0) <;> simp [List.find?, h]

theorem choose_zero (cost : ℕ → ℕ) (w : ℕ) (hw : 2 ≤ w) :
    chooseByPref cost w 0 = if cost 0 ≤ cost 1 then 0 else 1 := by
  have hm := minCand_zero cost w hw
  unfold chooseByPref
  rw [prefCands_zero w hw]
  by_cases hle : cost 0 ≤ cost 1
  · have h1 : (cost 0 == minCand cost w 0) = true := by
      simp [hm]; omega
    simp [List.find?, h1, hle]
  · have h1 : (cost 0 == minCand cost w 0) = false := by
      simp [hm]; omega
    have h2 : (cost 1 == minCand cost w 0) = true := by
      simp [hm]; omega
    simp [List.find?, h1, h2, hle]

theorem choose_last (cost : ℕ → ℕ) (w c : ℕ) (h0 : 0 < c) (hc : c = w - 1) :
    chooseByPref cost w c = if cost c ≤ cost (c - 1) then c else c - 1 := by
  have hm := minCand_last cost w c h0 hc
  unfold chooseByPref
  rw [prefCands_last w c h0 hc]
  by_cases hle : cost c ≤ cost (c - 1)
  · have h1 : (cost c == minCand cost w c) = true := by
      simp [hm]; omega
    simp [List.find?, h1, hle]
  · have h1 : (cost c == minCand cost w c) = false := by
      simp [hm]; omega
    have h2 : (cost (c - 1) == minCand cost w c) = true := by
      simp [hm]; omega
    simp [List.find?, h1, h2, hle]

theorem choose_mid (cost : ℕ → ℕ) (w c : ℕ) (h0 : 0 < c) (hlt : c < w - 1) :
    chooseByPref cost w c =
      if cost c ≤ cost (c - 1) ∧ cost c ≤ cost (c + 1) then c
      else if cost (c - 1) ≤ cost (c + 1) then c - 1
      else c + 1 := by
  have hm := minCand_mid cost w c h0 hlt
  unfold chooseByPref
  rw [prefCands_mid w c h0 hlt]
  by_cases hfst : cost c ≤ cost (c - 1) ∧ cost c ≤ cost (c + 1)
  · have h1 : (cost c == minCand cost w c) = true := by
      simp [hm]; omega
    simp [List.find?, h1, hfst]
  · have h1 : (cost c == minCand cost w c) = false := by
      simp [hm]; omega
    by_cases hsnd : cost (c - 1) ≤ cost (c + 1)
    · have h2 : (cost (c - 1) == minCand cost w c) = true := by
        simp [hm]; omega
      simp [List.find?, h1, h2, hfst, hsnd]
    · have h2 : (cost (c - 1) == minCand cost w c) = false := by
        simp [hm]; omega
      have h3 : (cost (c + 1) == minCand cost w c) = true := by
        simp [hm]; omega
      simp [List.find?, h1, h2, h3, hfst, hsnd]

/-- The wasm backtracking step picks exactly the candidate designated by
the specification's preference order, in every configuration. -/
theorem backstep_eq_choose (cost : ℕ → ℕ) (w c : ℕ) (hc : c < w) :
    backstep cost w c = chooseByPref cost w c := by
  by_cases h0 : 0 < c
  · by_cases hlt : c < w - 1
    · rw [choose_mid cost w c h0 hlt]
      unfold backstep
      simp only [h0, if_true, hlt]
      split_ifs <;> simp_all <;> omega
    · have hcl : c = w - 1 := by omega
      rw [choose_last cost w c h0 hcl]
      unfold backstep
      simp only [h0, if_true, hlt, if_false]
      split_ifs <;> simp_all <;> omega
  · have hc0 : c = 0 := by omega
    subst hc0
    by_cases hw : 2 ≤ w
    · rw [choose_zero cost w hw]
      unfold backstep
      simp only [Nat.lt_irrefl, if_false, show 0 < w - 1 from by omega,
        if_true]
      split_ifs <;> simp_all <;> omega
    · have hw1 : w = 1 := by omega
      rw [choose_one cost w hw1]
      unfold backstep
      simp [hw1]

theorem rowChoice_eq_select (cost : ℕ → ℕ) (w xc : ℕ) (hxc : xc < w)
    (hs : ∀ i, i < w → cost i < sentinel) :
    rowChoice cost w xc = selectIdx (recState cost w xc w) := by
  unfold rowChoice
  rw [rowRecord_final cost w xc hxc hs w (le_refl w)]

theorem recState_one (cost : ℕ → ℕ) (w : ℕ) (hw : w = 1) :
    recState cost w 0 w = ⟨cost 0, 0, 0, 0, 0, 0⟩ := by
  subst hw
  unfold recState e2pos
  simp

theorem recState_zero (cost : ℕ → ℕ) (w : ℕ) (hw : 2 ≤ w) :
    recState cost w 0 w = ⟨cost 0, 0, cost 1, 1, 0, 0⟩ := by
  unfold recState e2pos
  simp only [ESt.mk.injEq]
  refine ⟨?_, ?_, ?_, ?_, ?_, ?_⟩ <;> split_ifs <;> first | rfl | omega

theorem recState_last (cost : ℕ → ℕ) (w c : ℕ) (h0 : 0 < c) (hc : c = w - 1) :
    recState cost w c w = ⟨cost c, c, cost (c - 1), c - 1, 0, 0⟩ := by
  unfold recState e2pos
  simp only [ESt.mk.injEq]
  refine ⟨?_, ?_, ?_, ?_, ?_, ?_⟩ <;> split_ifs <;> first | rfl | omega

theorem recState_mid (cost : ℕ → ℕ) (w c : ℕ) (h0 : 0 < c) (hlt : c < w - 1) :
    recState cost w c w =
      ⟨cost c, c, cost (c - 1), c - 1, cost (c + 1), c + 1⟩ := by
  unfold recState e2pos
  simp only [ESt.mk.injEq]
  refine ⟨?_, ?_, ?_, ?_, ?_, ?_⟩ <;> split_ifs <;> first | rfl | omega

/-- Outside the zero-cost pitfall (`cost (c+1) ≠ 0`), the interior
`recover_path` selection follows the preference order unconditionally. -/
theorem rowChoice_mid_nonzero (cost : ℕ → ℕ) (w c : ℕ) (h0 : 0 < c)
    (hlt : c < w - 1) (hs : ∀ i, i < w → cost i < sentinel)
    (he3 : cost (c + 1) ≠ 0) :
    rowChoice cost w c = chooseByPref cost w c := by
  rw [rowChoice_eq_select cost w c (by omega) hs, recState_mid cost w c h0 hlt,
    choose_mid cost w c h0 hlt]
  unfold selectIdx
  simp only [he3, if_false, min3_eq_min, min2_eq_min]
  split_ifs <;> omega

/-- With `cost (c+1) = 0` and a genuine tie on the minimum, the interior
`recover_path` selection still follows the preference order. -/
theorem rowChoice_mid_zero_tie (cost : ℕ → ℕ) (w c : ℕ) (h0 : 0 < c)
    (hlt : c < w - 1) (hs : ∀ i, i < w → cost i < sentinel)
    (he3 : cost (c + 1) = 0) (htie : 2 ≤ tieCount cost w c) :
    rowChoice cost w c = chooseByPref cost w c := by
  have hm0 : minCand cost w c = 0 := by
    rw [minCand_mid cost w c h0 hlt, he3]
    omega
  have hor : cost c = 0 ∨ cost (c - 1) = 0 := by
    by_contra hcon
    push_neg at hcon
    have h1 : (cost c == minCand cost w c) = false := by
      simp [hm0, hcon.1]
    have h2 : (cost (c - 1) == minCand cost w c) = false := by
      simp [hm0, hcon.2]
    have h3 : (cost (c + 1) == minCand cost w c) = true := by
      simp [hm0, he3]
    have : tieCount cost w c = 1 := by
      unfold tieCount
      rw [prefCands_mid w c h0 hlt]
      simp [List.filter, h1, h2, h3]
    omega
  rw [rowChoice_eq_select cost w c (by omega) hs, recState_mid cost w c h0 hlt,
    choose_mid cost w c h0 hlt]
  unfold selectIdx
  simp only [he3, if_pos rfl, min2_eq_min]
  rcases hor with hz | hz <;> · simp only [hz]; split_ifs <;> omega

/-- The `recover_path` row selection follows the specification's
tie-breaking order whenever several candidates share the minimum cost. -/
theorem rowChoice_eq_choose (cost : ℕ → ℕ) (w c : ℕ) (hc : c < w)
    (hs : ∀ i, i < w → cost i < sentinel)
    (htie : 2 ≤ tieCount cost w c) :
    rowChoice cost w c = chooseByPref cost w c := by
  by_cases h0 : 0 < c
  · by_cases hlt : c < w - 1
    · by_cases he3 : cost (c + 1) = 0
      · exact rowChoice_mid_zero_tie cost w c h0 hlt hs he3 htie
      · exact rowChoice_mid_nonzero cost w c h0 hlt hs he3
    · have hcl : c = w - 1 := by omega
      rw [rowChoice_eq_select cost w c hc hs, recState_last cost w c h0 hcl,
        choose_last cost w c h0 hcl]
      unfold selectIdx
      simp only [min2_eq_min]
      split_ifs <;> omega
  · have hc0 : c = 0 := by omega
    subst hc0
    by_cases hw : 2 ≤ w
    · rw [rowChoice_eq_select cost w 0 hc hs, recState_zero cost w hw,
        choose_zero cost w hw]
      unfold selectIdx
      simp only [min2_eq_min]
      split_ifs <;> omega
    · have hw1 : w = 1 := by omega
      rw [rowChoice_eq_select cost w 0 hc hs, recState_one cost w hw1,
        choose_one cost w hw1]
      unfold selectIdx
      split_ifs <;> rfl

theorem removeStepC_lookup (src : Px3) (p j : ℕ) (d : Px3) (i j' c : ℕ)
    (ch : Fin 3) :
    removeStepC src p j d i j' c ch =
      if i = p then d j' c ch
      else if i < p then
        (if j' = j ∧ c = i then src j i ch else d j' c ch)
      else
        (if j' = j ∧ c = i - 1 then src j i ch else d j' c ch) := by
  simp only [removeStepC, setPx3]
  split_ifs <;> first | rfl | simp_all [setPx3]

theorem removeRowC_lookup (src : Px3) (w p j : ℕ) :
    ∀ k, k ≤ w → ∀ d : Px3, ∀ j' c : ℕ, ∀ ch : Fin 3,
      ((List.range k).foldl (removeStepC src p j) d) j' c ch =
        if j' = j ∧ c < p ∧ c < k then src j c ch
        else if j' = j ∧ p ≤ c ∧ c + 1 < k then src j (c + 1) ch
        else d j' c ch := by
  intro k
  induction k with
  | zero =>
    intro _ d j' c ch
    simp only [List.range_zero, List.foldl_nil]
    split_ifs <;> first | rfl | omega
  | succ k ih =>
    intro hk d j' c ch
    rw [List.range_succ, List.foldl_append, List.foldl_cons, List.foldl_nil,
      removeStepC_lookup, ih (by omega) d j' c ch]
    split_ifs <;>
      first
        | rfl
        | omega
        | (simp_all; done)
        | (simp_all; congr 2 <;> first | rfl | omega)
        | (simp_all; omega)

theorem removeRowC_lookup2 (src : Px3) (w p j : ℕ) (d : Px3) (j' c : ℕ)
    (ch : Fin 3) :
    removeRowC src w p j d j' c ch =
      if j' = j ∧ c < p ∧ c < w then src j c ch
      else if j' = j ∧ p ≤ c ∧ c + 1 < w then src j (c + 1) ch
      else d j' c ch := by
  unfold removeRowC
  exact removeRowC_lookup src w p j w (le_refl w) d j' c ch

theorem removeSeamPx_lookup (src : Px3) (h w : ℕ) (path : ℕ → ℕ) (d0 : Px3) :
    ∀ m, m ≤ h → ∀ j' c : ℕ, ∀ ch : Fin 3,
      ((List.range m).foldl (fun d j => removeRowC src w (path j) j d) d0)
          j' c ch =
        if j' < m ∧ c < path j' ∧ c < w then src j' c ch
        else if j' < m ∧ path j' ≤ c ∧ c + 1 < w then src j' (c + 1) ch
        else d0 j' c ch := by
  intro m
  induction m with
  | zero =>
    intro _ j' c ch
    simp only [List.range_zero, List.foldl_nil]
    split_ifs <;> first | rfl | omega
  | succ m ih =>
    intro hm j' c ch
    rw [List.range_succ, List.foldl_append, List.foldl_cons, List.foldl_nil,
      removeRowC_lookup2, ih (by omega) j' c ch]
    by_cases hjm : j' = m
    · rcases hjm with rfl
      split_ifs <;> first | rfl | omega
    · split_ifs <;> first | rfl | omega

/-- C3: for a valid seam (length = height, entries in `[0, W-1]`), the
SeamRemover yields a raster of the same height, width one less, the same
channel count (both sides are 3-channel rasters), whose row `j` keeps
columns left of `path j` in place and shifts columns right of it one left,
skipping column `path j`. -/
theorem remove_seam_spec (src : Raster3) (path : ℕ → ℕ) (d0 : Px3)
    (hh : 1 ≤ src.h) (hw : 2 ≤ src.w)
    (hp : ∀ j, j < src.h → path j < src.w) :
    (removeSeam src path d0).h = src.h ∧
    (removeSeam src path d0).w = src.w - 1 ∧
    ∀ j, j < src.h → ∀ i, i < src.w - 1 → ∀ ch : Fin 3,
      (removeSeam src path d0).px j i ch =
        if i < path j then src.px j i ch else src.px j (i + 1) ch := by
  refine ⟨rfl, rfl, ?_⟩
  intro j hj i hi ch
  show removeSeamPx src.px src.h src.w path d0 j i ch = _
  unfold removeSeamPx
  rw [removeSeamPx_lookup src.px src.h src.w path d0 src.h (le_refl _) j i ch]
  by_cases hip : i < path j
  · rw [if_pos ⟨hj, hip, by omega⟩, if_pos hip]
  · rw [if_neg (by omega : ¬ (j < src.h ∧ i < path j ∧ i < src.w)),
      if_pos ⟨hj, by omega, by omega⟩, if_neg hip]

theorem remove_seam_spec_witness :
    (1 ≤ rs12.h ∧ 2 ≤ rs12.w ∧ ∀ j, j < rs12.h → path0 j < rs12.w) ∧
    ((removeSeam rs12 path0 junk3).h = rs12.h ∧
      (removeSeam rs12 path0 junk3).w = rs12.w - 1 ∧
      ∀ j, j < rs12.h → ∀ i, i < rs12.w - 1 → ∀ ch : Fin 3,
        (removeSeam rs12 path0 junk3).px j i ch =
          if i < path0 j then rs12.px j i ch else rs12.px j (i + 1) ch) :=
  ⟨⟨le_refl 1, le_refl 2, fun j _ => by show (0:ℕ) < 2; decide⟩,
    remove_seam_spec rs12 path0 junk3 (le_refl 1) (le_refl 2)
      (fun j _ => by show (0:ℕ) < 2; decide)⟩

/-- C4 (amended): `remove_seam` performs no validation of the seam path.
With an out-of-range column (`path j ≥ W`) it still runs the copy loops and
produces a raster; every source column of such a row is copied through the
`i < path[j]` branch, so column `W-1` is written even though the output is
only `W-1` columns wide (a buffer overflow in the C code), and no
InvalidSeam condition exists anywhere in the function. -/
theorem remove_seam_no_validation (src : Raster3) (path : ℕ → ℕ) (d0 : Px3)
    (j i : ℕ) (ch : Fin 3) (hj : j < src.h) (hpw : src.w ≤ path j)
    (hi : i < src.w) :
    (removeSeam src path d0).px j i ch = src.px j i ch := by
  show removeSeamPx src.px src.h src.w path d0 j i ch = _
  unfold removeSeamPx
  rw [removeSeamPx_lookup src.px src.h src.w path d0 src.h (le_refl _) j i ch,
    if_pos ⟨hj, by omega, hi⟩]

/-- C4 (counterexample): `remove_seam` does not fail on an invalid seam.
On the 1×2 raster with the out-of-range seam `[5]` it produces a
fully-determined output raster — both source columns are copied, the second
to column 1, outside the output's width 1 — rather than rejecting the seam
with an InvalidSeam condition. -/
theorem remove_seam_invalid_seam_cex :
    (removeSeam rs12 path5 junk3).h = 1 ∧
    (removeSeam rs12 path5 junk3).w = 1 ∧
    (removeSeam rs12 path5 junk3).px 0 0 0 = 1 ∧
    (removeSeam rs12 path5 junk3).px 0 1 0 = 2 := by decide

theorem remove_seam_no_validation_witness :
    (0 < rs12.h ∧ rs12.w ≤ path5 0 ∧ 1 < rs12.w) ∧
    (removeSeam rs12 path5 junk3).px 0 1 0 = rs12.px 0 1 0 :=
  ⟨⟨by decide, by decide, by decide⟩,
    remove_seam_no_validation rs12 path5 junk3 0 1 0 (by decide) (by decide)
      (by decide)⟩

theorem setPx4_lookup (f : Px4) (j i : ℕ) (v : Fin 4 → ℕ) (j' i' : ℕ)
    (ch : Fin 4) :
    setPx4 f j i v j' i' ch = if j' = j ∧ i' = i then v ch else f j' i' ch :=
  rfl

theorem removeRowW_inv (src : Px4) (w p j : ℕ) (d : Px4) :
    ∀ k, k ≤ w →
      ((List.range k).foldl (removeStepW src p j) (0, d)).1 =
        k - (if p < k then 1 else 0) ∧
      ∀ j' c : ℕ, ∀ ch : Fin 4,
        ((List.range k).foldl (removeStepW src p j) (0, d)).2 j' c ch =
          if j' = j ∧ c < p ∧ c < k then src j c ch
          else if j' = j ∧ p ≤ c ∧ c + 1 < k then src j (c + 1) ch
          else d j' c ch := by
  intro k
  induction k with
  | zero =>
    refine fun _ => ⟨by simp, fun j' c ch => ?_⟩
    simp only [List.range_zero, List.foldl_nil]
    split_ifs <;> first | rfl | omega
  | succ k ih =>
    intro hk
    obtain ⟨h1, h2⟩ := ih (by omega)
    rw [List.range_succ, List.foldl_append, List.foldl_cons, List.foldl_nil,
      show ∀ s : ℕ × Px4, ∀ i : ℕ, removeStepW src p j s i =
          (if i = p then s
           else (s.1 + 1, setPx4 s.2 j s.1 (fun ch => src j i ch)))
        from fun s i => rfl]
    by_cases hkp : k = p
    · rw [if_pos hkp]
      refine ⟨?_, fun j' c ch => ?_⟩
      · rw [h1]
        split_ifs <;> omega
      · rw [h2 j' c ch]
        split_ifs <;> first | rfl | omega
    · rw [if_neg hkp]
      refine ⟨?_, fun j' c ch => ?_⟩
      · simp only [h1]
        split_ifs <;> omega
      · simp only [setPx4_lookup, h1, h2 j' c ch]
        by_cases hklt : k < p
        · rw [if_neg (by omega : ¬ p < k)]
          split_ifs <;>
            first
              | rfl
              | omega
              | (simp_all; done)
              | (simp_all; congr 2 <;> first | rfl | omega)
        · rw [if_pos (by omega : p < k)]
          split_ifs <;>
            first
              | rfl
              | omega
              | (simp_all; done)
              | (simp_all; congr 2 <;> first | rfl | omega)

theorem removeRowW_lookup (src : Px4) (w p j : ℕ) (d : Px4) (j' c : ℕ)
    (ch : Fin 4) :
    removeRowW src w p j d j' c ch =
      if j' = j ∧ c < p ∧ c < w then src j c ch
      else if j' = j ∧ p ≤ c ∧ c + 1 < w then src j (c + 1) ch
      else d j' c ch := by
  unfold removeRowW
  exact ((removeRowW_inv src w p j d w (le_refl w)).2) j' c ch

theorem removeW_lookup (src : Px4) (h w : ℕ) (path : ℕ → ℕ) (d0 : Px4) :
    ∀ m, m ≤ h → ∀ j' c : ℕ, ∀ ch : Fin 4,
      ((List.range m).foldl (fun d j => removeRowW src w (path j) j d) d0)
          j' c ch =
        if j' < m ∧ c < path j' ∧ c < w then src j' c ch
        else if j' < m ∧ path j' ≤ c ∧ c + 1 < w then src j' (c + 1) ch
        else d0 j' c ch := by
  intro m
  induction m with
  | zero =>
    intro _ j' c ch
    simp only [List.range_zero, List.foldl_nil]
    split_ifs <;> first | rfl | omega
  | succ m ih =>
    intro hm j' c ch
    rw [List.range_succ, List.foldl_append, List.foldl_cons, List.foldl_nil,
      removeRowW_lookup, ih (by omega) j' c ch]
    by_cases hjm : j' = m
    · rcases hjm with rfl
      split_ifs <;> first | rfl | omega
    · split_ifs <;> first | rfl | omega

theorem wasmAux_lt (cost : ℕ → ℕ → ℕ) (h w : ℕ) (hw : 1 ≤ w) :
    ∀ d, wasmAux cost h w d < w := by
  intro d
  induction d with
  | zero => exact (bottomScanW_least (cost (h - 1)) w hw).1
  | succ d ih =>
    show backstep (cost (h - 2 - d)) w (wasmAux cost h w d) < w
    rw [backstep_eq_choose _ w _ ih]
    exact chooseByPref_lt _ w _ ih

theorem wasmPath_lt (cost : ℕ → ℕ → ℕ) (h w j : ℕ) (hw : 1 ≤ w) :
    wasmPath cost h w j < w :=
  wasmAux_lt cost h w hw (h - 1 - j)

/-- The wasm backtrack satisfies the specification's seam invariant on
every cost table: the bottom entry is a lowest minimising index and every
step is a locally minimal 8-connected move. -/
theorem wasmPath_seam_invariant (cost : ℕ → ℕ → ℕ) (h w : ℕ) (hh : 1 ≤ h)
    (hw : 1 ≤ w) : seamInvariant cost h w (wasmPath cost h w) := by
  constructor
  · have h0 : h - 1 - (h - 1) = 0 := by omega
    have hb := bottomScanW_least (cost (h - 1)) w hw
    unfold wasmPath
    rw [h0]
    exact ⟨hb.1, hb.2.1⟩
  · intro j hj
    have hd1 : h - 1 - j = (h - 2 - j) + 1 := by omega
    have hd2 : h - 2 - (h - 2 - j) = j := by omega
    have hd3 : h - 1 - (j + 1) = h - 2 - j := by omega
    have hlt : wasmPath cost h w (j + 1) < w := wasmPath_lt cost h w _ hw
    have hstep : wasmPath cost h w j =
        backstep (cost j) w (wasmPath cost h w (j + 1)) := by
      unfold wasmPath
      rw [hd1, hd3]
      show backstep (cost (h - 2 - (h - 2 - j))) w _ = _
      rw [hd2]
    rw [hstep, backstep_eq_choose _ w _ hlt]
    exact ⟨chooseByPref_mem_predSet _ w _ hlt, chooseByPref_min _ w _ hlt⟩

/-- C10: in the composed wasm operation every surviving pixel — one not on
the seam — reaches the reduced raster with all four of its channel values
unchanged, the alpha channel included: output column `i` of row `j` is
source column `i` when `i < path j` and source column `i+1` otherwise. -/
theorem seam_carve_preserves_survivors (src : Raster4) (junk : ℕ → ℕ)
    (d0 : Px4) (hh : 1 ≤ src.h) (hw : 2 ≤ src.w) :
    ∀ j, j < src.h → ∀ i, i < src.w - 1 → ∀ ch : Fin 4,
      (seamCarveW src junk d0).px j i ch =
        if i < wasmSeam src junk j then src.px j i ch
        else src.px j (i + 1) ch := by
  intro j hj i hi ch
  show removeW src.px src.h src.w (wasmSeam src junk) d0 j i ch = _
  unfold removeW
  rw [removeW_lookup src.px src.h src.w (wasmSeam src junk) d0 src.h
    (le_refl _) j i ch]
  by_cases hip : i < wasmSeam src junk j
  · rw [if_pos ⟨hj, hip, by omega⟩, if_pos hip]
  · rw [if_neg (by omega : ¬ (j < src.h ∧ i < wasmSeam src junk j ∧ i < src.w)),
      if_pos ⟨hj, by omega, by omega⟩, if_neg hip]

theorem seam_carve_preserves_survivors_witness :
    (1 ≤ rw12.h ∧ 2 ≤ rw12.w) ∧
    (∀ j, j < rw12.h → ∀ i, i < rw12.w - 1 → ∀ ch : Fin 4,
      (seamCarveW rw12 junk0 junk4).px j i ch =
        if i < wasmSeam rw12 junk0 j then rw12.px j i ch
        else rw12.px j (i + 1) ch) :=
  ⟨⟨le_refl 1, le_refl 2⟩,
    seam_carve_preserves_survivors rw12 junk0 junk4 (le_refl 1) (le_refl 2)⟩

/-- C1: the seam returned by `recover_path` violates the specification's
invariant on the cost table `cbBest`: the bottom entry is column 1, and
among the adjacency set {0, 1, 2} of row 0 the minimum is 0 at column 2,
yet `recover_path` picks column 0 (cost 3) — its `e3_sum == 0` test
mistakes the legitimate zero cost at column 2 for "no third candidate".
The inlined wasm backtrack on the same table does satisfy the invariant. -/
theorem recover_path_breaks_invariant :
    ¬ seamInvariant cbBest 2 3 (recoverPath cbBest 2 3 0) ∧
    recoverPath cbBest 2 3 0 1 = 1 ∧
    recoverPath cbBest 2 3 0 0 = 0 ∧
    cbBest 0 2 = 0 ∧ cbBest 0 0 = 3 ∧
    seamInvariant cbBest 2 3 (wasmPath cbBest 2 3) := by decide

/-- C2: on a width-1 energy map `dynamic_seam` reads the cell it is about
to write (`best_arr[(j-1)*width + (i+1)]` is flat index `j` when
`width = 1`), i.e. uninitialised memory: with zeroed `malloc` junk the cell
(1,0) gets 7, with junk 9 it gets 12, while the claimed recurrence value is
`E[1][0] + CostTable[0][0] = 12`. -/
theorem dynamic_seam_w1_uninitialised_read :
    bestTbl dsE1 1 junk0 1 0 = 7 ∧
    bestTbl dsE1 1 junk9 1 0 = 12 ∧
    dsE1 1 0 +
      (predSet 1 0).inf' (predSet_nonempty Nat.one_pos) (bestTbl dsE1 1 junk0 0)
      = 12 ∧
    bestTbl dsE1 1 junk0 1 0 ≠
      dsE1 1 0 +
        (predSet 1 0).inf' (predSet_nonempty Nat.one_pos)
          (bestTbl dsE1 1 junk0 0) := by decide

/-- C5: the SeamFinder tie-breaking, for both implementations.  The bottom
row choice of the wasm scan and of `recover_path` is the lowest minimising
index; a wasm backtracking step always picks the first candidate of the
preference order `c`, `c-1`, `c+1` attaining the candidate minimum; and a
`recover_path` backtracking row does the same whenever several candidates
share the minimum. -/
theorem seam_finder_tie_breaking (cost : ℕ → ℕ) (w c u : ℕ) (hw : 1 ≤ w)
    (hc : c < w) (hs : ∀ i, i < w → cost i < sentinel)
    (htie : 2 ≤ tieCount cost w c) :
    isLeastArgmin cost w (bottomScanW cost w) ∧
    isLeastArgmin cost w (bottomScanR cost w u).2 ∧
    backstep cost w c = chooseByPref cost w c ∧
    rowChoice cost w c = chooseByPref cost w c :=
  ⟨bottomScanW_least cost w hw, bottomScanR_least cost w u hw hs,
    backstep_eq_choose cost w c hc, rowChoice_eq_choose cost w c hc hs htie⟩

theorem seam_finder_tie_breaking_witness :
    ((1 ≤ 3 ∧ 1 < 3 ∧ (∀ i, i < 3 → zRow i < sentinel) ∧
        2 ≤ tieCount zRow 3 1)) ∧
    (isLeastArgmin zRow 3 (bottomScanW zRow 3) ∧
      isLeastArgmin zRow 3 (bottomScanR zRow 3 0).2 ∧
      backstep zRow 3 1 = chooseByPref zRow 3 1 ∧
      rowChoice zRow 3 1 = chooseByPref zRow 3 1) :=
  ⟨⟨by decide, by decide, fun i _ => by show (0:ℕ) < sentinel; decide,
      by decide⟩,
    seam_finder_tie_breaking zRow 3 1 0 (by decide) (by decide)
      (fun i _ => by show (0:ℕ) < sentinel; decide) (by decide)⟩

/-- C6: on `c6g` the four composed stages and the composed wasm operation
disagree: at row 1 the stage pipeline's `recover_path` keeps column 2
(because the zero cost at column 3 trips its `e3_sum == 0` test) while the
wasm backtrack moves to column 3; the reduced rasters then differ at
row 1, column 2 (red channel 60 against 0). -/
theorem seam_carve_vs_stages_divergence :
    cSeam c6img3 junk0 0 1 = 2 ∧
    wasmSeam c6img4 junk0 1 = 3 ∧
    (seamCarveStages c6img3 junk0 0 dz3).px 1 2 0 = 60 ∧
    (seamCarveW c6img4 junk0 dz4).px 1 2 0 = 0 := by decide

theorem natAbsSq_sum6 (a b c d e f : ℤ) :
    (a.natAbs ^ 2 + b.natAbs ^ 2 + c.natAbs ^ 2) +
      (d.natAbs ^ 2 + e.natAbs ^ 2 + f.natAbs ^ 2) =
    (a ^ 2 + b ^ 2 + c ^ 2 + d ^ 2 + e ^ 2 + f ^ 2).toNat := by
  have k : ∀ g : ℤ, g.natAbs ^ 2 = (g ^ 2).toNat := by
    intro g
    rw [← Int.natAbs_pow]
    have := sq_nonneg g
    omega
  rw [k a, k b, k c, k d, k e, k f]
  have ha := sq_nonneg a
  have hb := sq_nonneg b
  have hc := sq_nonneg c
  have hd := sq_nonneg d
  have he := sq_nonneg e
  have hf := sq_nonneg f
  omega

theorem gradSum_eq (px : ℕ → ℕ → ℕ → ℕ) (h w j i : ℕ) :
    gradX2 px w j i + gradY2 px h j i = (gradSqInt px h w j i).toNat := by
  unfold gradX2 gradY2 gradSqInt
  exact natAbsSq_sum6 _ _ _ _ _ _

/-- C7: the stored energy value of both `calc_energy` implementations is
`floor(floor(sqrt(gradX² + gradY²)) / 10)` reduced modulo 256 (the
truncating narrowing of the `uint8_t` store), identically in all three
colour channels of the output cell. -/
theorem calc_energy_stored (im : Raster3) (src4 : Px4) (h4 w4 j i : ℕ)
    (ch : Fin 3) :
    (calcEnergy im).px j i ch =
      Nat.sqrt (gradSqInt (view3 im.px) im.h im.w j i).toNat / 10 % 256 ∧
    calcEnergyW src4 h4 w4 j i ⟨ch.val, by omega⟩ =
      Nat.sqrt (gradSqInt (view4 src4) h4 w4 j i).toNat / 10 % 256 := by
  constructor
  · show energyNorm (view3 im.px) im.h im.w j i = _
    unfold energyNorm energyAt
    rw [isqrt_eq_sqrt, gradSum_eq]
  · have hch : ¬ ((⟨ch.val, by omega⟩ : Fin 4).val = 3) := by
      have := ch.isLt
      simp only [Fin.val_mk]
      omega
    show (if (⟨ch.val, by omega⟩ : Fin 4).val = 3 then 255
      else energyNorm (view4 src4) h4 w4 j i) = _
    rw [if_neg hch]
    unfold energyNorm energyAt
    rw [isqrt_eq_sqrt, gradSum_eq]

/-- C9: for byte-valued input rasters the energy before narrowing is at
most 624 and the normalised value at most 62, so the truncating cast to an
unsigned 8-bit value never changes the value: the wrap-around for energies
≥ 2550 is unreachable. -/
theorem energy_never_wraps (px : ℕ → ℕ → ℕ → ℕ) (h w j i : ℕ)
    (hb : ∀ j' i' c, px j' i' c ≤ 255) :
    energyAt px h w j i ≤ 624 ∧ energyAt px h w j i / 10 ≤ 62 ∧
    energyNorm px h w j i = energyAt px h w j i / 10 := by
  have key : ∀ a b : ℕ, a ≤ 255 → b ≤ 255 → ((a : ℤ) - b).natAbs ^ 2 ≤ 65025 := by
    intro a b ha hb2
    have h1 : ((a : ℤ) - b).natAbs ≤ 255 := by omega
    calc ((a : ℤ) - b).natAbs ^ 2 ≤ 255 ^ 2 := Nat.pow_le_pow_left h1 2
      _ = 65025 := by norm_num
  have hbound : gradX2 px w j i + gradY2 px h j i ≤ 390150 := by
    unfold gradX2 gradY2
    have k1 := key _ _ (hb j (kRight w i) 0) (hb j (kLeft w i) 0)
    have k2 := key _ _ (hb j (kRight w i) 1) (hb j (kLeft w i) 1)
    have k3 := key _ _ (hb j (kRight w i) 2) (hb j (kLeft w i) 2)
    have k4 := key _ _ (hb (kUp h j) i 0) (hb (kDown h j) i 0)
    have k5 := key _ _ (hb (kUp h j) i 1) (hb (kDown h j) i 1)
    have k6 := key _ _ (hb (kUp h j) i 2) (hb (kDown h j) i 2)
    omega
  have h624 : energyAt px h w j i ≤ 624 := by
    unfold energyAt
    by_contra hcon
    push_neg at hcon
    obtain ⟨hs1, hs2⟩ := isqrt_spec (gradX2 px w j i + gradY2 px h j i)
    have hmul : 625 * 625 ≤
        isqrt (gradX2 px w j i + gradY2 px h j i) *
          isqrt (gradX2 px w j i + gradY2 px h j i) :=
      Nat.mul_le_mul (by omega) (by omega)
    omega
  refine ⟨h624, by omega, ?_⟩
  unfold energyNorm
  exact Nat.mod_eq_of_lt (by omega)

theorem energy_never_wraps_witness :
    (∀ j' i' c, pxZero j' i' c ≤ 255) ∧
    (energyAt pxZero 1 1 0 0 ≤ 624 ∧ energyAt pxZero 1 1 0 0 / 10 ≤ 62 ∧
      energyNorm pxZero 1 1 0 0 = energyAt pxZero 1 1 0 0 / 10) :=
  ⟨fun j' i' c => by show (0:ℕ) ≤ 255; decide,
    energy_never_wraps pxZero 1 1 0 0
      (fun j' i' c => by show (0:ℕ) ≤ 255; decide)⟩

/-- C8: on the 3×3 all-black image the energy map is all-zero, the cost
table is all-zero, `recover_path` returns the seam (0, 0, 0) by the
lowest-index tie-break, and `remove_seam` yields a 3×2 raster equal to
columns 1–2 of the original. -/
theorem all_black_scenario :
    (∀ j, j < 3 → ∀ i, i < 3 → ∀ ch : Fin 3,
      (calcEnergy black3).px j i ch = 0) ∧
    (∀ j, j < 3 → ∀ i, i < 3 → cCost black3 junk0 j i = 0) ∧
    (∀ j, j < 3 → cSeam black3 junk0 0 j = 0) ∧
    (seamCarveStages black3 junk0 0 dz3).h = 3 ∧
    (seamCarveStages black3 junk0 0 dz3).w = 2 ∧
    (∀ j, j < 3 → ∀ i, i < 2 → ∀ ch : Fin 3,
      (seamCarveStages black3 junk0 0 dz3).px j i ch =
        black3.px j (i + 1) ch) := by decide

end SeamCarving

